import Mathlib

/-!
A verification development for the ast-grep structural search & rewrite
engine, as exposed through its Python binding (`SgRoot` / `SgNode` / `Pos` /
`Range` / `Edit`).  The matching core itself ships as a compiled extension, so
the definitions below are modelled from the specification of that core:
the tree/node data model, the pattern matcher, the rule evaluator with
relational `inside` walks, the meta-variable binding environment, the
`substring` transform, and the edit-commit algorithm.  Concrete syntax trees
appearing below reproduce the parse trees of the JavaScript sources used by
the binding's test suite; `index`/`column` count Unicode characters, matching
the behaviour the binding exhibits on multi-byte sources.
-/

namespace AstGrep

/-- Shorthand: the character sequence of a string (sources are addressed in
characters). -/
def cs (s : String) : List Char := s.toList

/-- Modelled from the spec: `Pos {line, column, index}` — `index` is an
absolute offset into the source's addressable units, `column` the offset from
the start of `line`. -/
structure Pos where
  line : Nat
  column : Nat
  index : Nat
deriving DecidableEq, Repr

/-- Modelled from the spec: `Range {start, end}`, half-open. -/
structure Range where
  start : Pos
  stop : Pos
deriving DecidableEq, Repr

/-- The literal source slice on the half-open character interval `[a, b)`. -/
def slice (src : List Char) (a b : Nat) : List Char :=
  (src.take b).drop a

/-- Compute the `Pos` (line, column, index) of a character offset: the line is
the number of newlines before it, the column the distance to the last newline. -/
def posOfIndex (src : List Char) (idx : Nat) : Pos :=
  let pre := src.take idx
  { line := pre.count '\n'
    column := (pre.reverse.takeWhile (fun c => c ≠ '\n')).length
    index := idx }

/-- Modelled from the spec: a parsed syntax tree node — a kind tag, the
half-open character span into the owning tree's source, and the ordered owned
children.  `text` is always derived by slicing the stored source at the span. -/
inductive STree where
  | mk (kind : String) (startIdx stopIdx : Nat) (children : List STree)
deriving Repr

/-- Node kind tag. -/
def STree.kind : STree → String
  | .mk k _ _ _ => k

/-- Span start (character offset). -/
def STree.startIdx : STree → Nat
  | .mk _ a _ _ => a

/-- Span stop (character offset, exclusive). -/
def STree.stopIdx : STree → Nat
  | .mk _ _ b _ => b

/-- Ordered children. -/
def STree.children : STree → List STree
  | .mk _ _ _ cs => cs

/-- Modelled from the spec: a tree owns the immutable source text and the node
arena, and carries an identity (`treeId`) distinguishing it from other trees. -/
structure Doc where
  treeId : Nat
  src : List Char
  tree : STree

/-- A node handle inside one tree: the list of child indices from the node up
to the root (head = index in the immediate parent).  The root is `[]`. -/
abbrev Path := List Nat

/-- Descend along a root-to-node index list. -/
def descend (t : STree) : List Nat → Option STree
  | [] => some t
  | i :: rest => match t.children.get? i with
    | some c => descend c rest
    | none => none

/-- Resolve a (reversed) path to the tree node it denotes. -/
def getNode (d : Doc) (p : Path) : Option STree :=
  descend d.tree p.reverse

/-- The node's text: the literal source slice at its span. -/
def textOf (d : Doc) (t : STree) : List Char :=
  slice d.src t.startIdx t.stopIdx

/-- The text of the node a path denotes. -/
def nodeTextAt (d : Doc) (p : Path) : Option (List Char) :=
  (getNode d p).map (textOf d)

/-- The range of the node a path denotes: both endpoints computed from the
stored source. -/
def rangeAt (d : Doc) (p : Path) : Option Range :=
  (getNode d p).map (fun t =>
    { start := posOfIndex d.src t.startIdx
      stop := posOfIndex d.src t.stopIdx })

mutual
/-- Pre-order (document order) enumeration of the paths of a subtree sitting
at path `rp`. -/
def preorderAux : STree → Path → List Path
  | .mk _ _ _ cs, rp => rp :: preorderList cs 0 rp
/-- Pre-order enumeration of a child list, the first child having index `i`. -/
def preorderList : List STree → Nat → Path → List Path
  | [], _, _ => []
  | c :: rest, i, rp => preorderAux c (i :: rp) ++ preorderList rest (i + 1) rp
end

/-- All node paths of a document, in document (pre-order) order. -/
def preorder (d : Doc) : List Path :=
  preorderAux d.tree []

/-! ## Pattern matcher -/

/-- Modelled from the spec: a compiled pattern tree.  A single-capture
meta-variable matches exactly one subtree and binds it; an anonymous wildcard
matches one subtree without binding; other positions compare kind (and, for
leaf tokens, text) structurally.  (Multi-captures are not needed by the
claims and are omitted.) -/
inductive Pat where
  | metaVar (nm : String)
  | anon
  | pleaf (kind : String) (txt : String)
  | pnode (kind : String) (children : List Pat)
deriving Repr

/-- Modelled from the spec: the external parser's output for a pattern
snippet — the snippet parsed with the target grammar, leaves carrying their
token text. -/
inductive PTree where
  | mk (kind : String) (txt : String) (children : List PTree)
deriving Repr

/-- A meta-variable body: nonempty, uppercase letters, digits or underscores. -/
def isMetaBody (l : List Char) : Bool :=
  !l.isEmpty && l.all (fun c => c.isUpper || c.isDigit || c = '_')

mutual
/-- Modelled from the spec: pattern compilation — a leaf whose text is `$_`
becomes the anonymous wildcard, a leaf `$NAME` becomes a single-capture
meta-variable, everything else is compared structurally. -/
def compilePat : PTree → Pat
  | .mk k t [] =>
    match t.toList with
    | '$' :: rest =>
      if rest = ['_'] then .anon
      else if isMetaBody rest then .metaVar (String.mk rest)
      else .pleaf k t
    | _ => .pleaf k t
  | .mk k _ (c :: rest) => .pnode k (compilePats (c :: rest))
/-- Compile a list of pattern-parse children. -/
def compilePats : List PTree → List Pat
  | [] => []
  | c :: rest => compilePat c :: compilePats rest
end

/-- The binding environment: meta-variable name to the captured node's span. -/
abbrev Env := List (String × (Nat × Nat))

/-- Modelled from the spec: binding a meta-variable — a second occurrence of
the same name must bind an identical node text, else the match fails. -/
def bindVar (src : List Char) (env : Env) (nm : String) (a b : Nat) : Option Env :=
  match env.lookup nm with
  | some (a', b') => if slice src a' b' = slice src a b then some env else none
  | none => some ((nm, (a, b)) :: env)

mutual
/-- Modelled from the spec: structural pattern matching — same kind at each
non-wildcard position, same leaf text for leaf tokens, recursive equality for
children, with meta-variables consuming and binding instead of comparing. -/
def matchPat (src : List Char) : Pat → STree → Env → Option Env
  | .metaVar nm, c, env => bindVar src env nm c.startIdx c.stopIdx
  | .anon, _, env => some env
  | .pleaf k t, c, env =>
    if c.kind = k ∧ c.children.isEmpty ∧ slice src c.startIdx c.stopIdx = t.toList
    then some env else none
  | .pnode k ps, c, env =>
    if c.kind = k then matchChildren src ps c.children env else none
/-- Match a pattern child list against a candidate child list, one-to-one. -/
def matchChildren (src : List Char) : List Pat → List STree → Env → Option Env
  | [], [], env => some env
  | [], _ :: _, _ => none
  | _ :: _, [], _ => none
  | p :: ps, c :: rest, env =>
    match matchPat src p c env with
    | some env' => matchChildren src ps rest env'
    | none => none
end

/-- Does the pattern match the node (with an empty initial environment)? -/
def patMatches (d : Doc) (pat : Pat) (t : STree) : Bool :=
  (matchPat d.src pat t []).isSome

/-- Find by pattern: first match in pre-order, together with its bindings. -/
def findPatEnv (d : Doc) (pat : Pat) : Option (Path × Env) :=
  (preorder d).firstM (fun p =>
    match getNode d p with
    | some t => (matchPat d.src pat t []).map (fun env => (p, env))
    | none => none)

/-- Find by pattern: the first matching node in pre-order, or none. -/
def findPat (d : Doc) (pat : Pat) : Option Path :=
  (findPatEnv d pat).map (·.1)

/-! ## Rule evaluator -/

/-- Modelled from the spec: the `stopBy` traversal-boundary policy of a
relational rule — `neighbor` examines only the single adjacent element,
`stopEnd` walks until the boundary (here: the root) is exhausted. -/
inductive StopBy where
  | neighbor
  | stopEnd
deriving DecidableEq, Repr

/-- Modelled from the spec: the rule grammar restricted to the constructors
the claims exercise — atomic `kind` and `pattern`, the relational `inside`,
and the composite `all` / `any` / `not`. -/
inductive Rule where
  | kind (k : String)
  | pattern (p : Pat)
  | inside (target : Rule) (stopBy : StopBy)
  | all (rs : List Rule)
  | any (rs : List Rule)
  | not (r : Rule)
deriving Repr

/-- Modelled from the spec: the strictly-upward ancestor walk of
`inside … stopBy: end` — step to the parent, test it, and continue until the
root's boundary is exhausted; `f` tests one ancestor. -/
def anyTail (f : Path → Bool) : Path → Bool
  | [] => false
  | _ :: q => f q || anyTail f q

mutual
/-- Modelled from the spec: recursive rule evaluation against the node at
path `p`.  `kind` is exact string equality on the kind tag; `pattern` is the
structural match of §4.2; `inside` walks strictly upward through the
ancestors as far as `stopBy` allows; `all` is conjunction, `any` disjunction,
`not` negation. -/
def evalRule (d : Doc) : Rule → Path → Bool
  | .kind k, p => match getNode d p with
    | some t => t.kind = k
    | none => false
  | .pattern pat, p => match getNode d p with
    | some t => patMatches d pat t
    | none => false
  | .inside target .neighbor, p => match p with
    | [] => false
    | _ :: q => evalRule d target q
  | .inside target .stopEnd, p => anyTail (evalRule d target) p
  | .all rs, p => evalAll d rs p
  | .any rs, p => evalAny d rs p
  | .not r, p => !evalRule d r p
/-- Conjunction over a rule list (vacuously true on `[]`). -/
def evalAll (d : Doc) : List Rule → Path → Bool
  | [], _ => true
  | r :: rs, p => evalRule d r p && evalAll d rs p
/-- Disjunction over a rule list (vacuously false on `[]`). -/
def evalAny (d : Doc) : List Rule → Path → Bool
  | [], _ => false
  | r :: rs, p => evalRule d r p || evalAny d rs p
end

/-- The `inside … stopBy: end` walk for a target rule, named for reference in
the statements below. -/
def insideEnd (d : Doc) (target : Rule) (p : Path) : Bool :=
  anyTail (evalRule d target) p

/-- Find by rule: first match in pre-order, or none. -/
def findRule (d : Doc) (r : Rule) : Option Path :=
  (preorder d).find? (fun p => evalRule d r p)

mutual
/-- Modelled from the spec: `find_all` — pre-order scan yielding each
maximal top-level match; matches nested inside an already-yielded match are
not independently re-yielded. -/
def findAllAux (d : Doc) (r : Rule) : STree → Path → List Path
  | .mk _ _ _ cs, rp =>
    if evalRule d r rp then [rp] else findAllList d r cs 0 rp
/-- The find-all scan over a child list, the first child having index `i`. -/
def findAllList (d : Doc) (r : Rule) : List STree → Nat → Path → List Path
  | [], _, _ => []
  | c :: rest, i, rp => findAllAux d r c (i :: rp) ++ findAllList d r rest (i + 1) rp
end

/-- Find all: every maximal top-level match of the rule, in document order. -/
def findAll (d : Doc) (r : Rule) : List Path :=
  findAllAux d r d.tree []

/-! ## Edit engine -/

/-- Modelled from the spec: an `Edit` — absolute start/end offsets into a
text plus the replacement text; both offsets are caller-mutable after
creation and are not tied to a node. -/
structure Edit where
  start_pos : Nat
  end_pos : Nat
  inserted_text : List Char
deriving DecidableEq, Repr

/-- Descending-start-offset order on edits. -/
def editGE (a b : Edit) : Prop :=
  b.start_pos ≤ a.start_pos

instance : DecidableRel editGE := fun _ _ => Nat.decLe _ _

instance : IsTotal Edit editGE :=
  ⟨fun a b => by unfold editGE; omega⟩

instance : IsTrans Edit editGE :=
  ⟨fun a b c h h' => by unfold editGE at *; omega⟩

/-- Modelled from the spec: the engine sorts edits by descending start
offset before splicing. -/
def sortEdits (es : List Edit) : List Edit :=
  List.insertionSort editGE es

/-- Splice one edit into a text: keep everything before `start_pos`, insert
the replacement, keep everything from `end_pos` on. -/
def spliceEdit (s : List Char) (e : Edit) : List Char :=
  s.take e.start_pos ++ e.inserted_text ++ s.drop e.end_pos

/-- Modelled from the spec: `commit_edits` — sort the batch by descending
start offset, then splice right-to-left into the target's text. -/
def commitEdits (src : List Char) (es : List Edit) : List Char :=
  (sortEdits es).foldl spliceEdit src

/-- Modelled from the spec: `replace(node, text)` — an `Edit` spanning the
node's exact byte range with the given replacement text, with no structural
validation of the text. -/
def replace (d : Doc) (p : Path) (t : String) : Option Edit :=
  (rangeAt d p).map (fun r =>
    { start_pos := r.start.index, end_pos := r.stop.index, inserted_text := t.toList })

/-- Modelled from the spec: committing on a (possibly non-root) node splices
only within that node's own text span, offsets being rebased to it. -/
def commitEditsOn (d : Doc) (p : Path) (es : List Edit) : Option (List Char) :=
  (getNode d p).map (fun t =>
    (sortEdits es).foldl
      (fun s e => spliceEdit s
        { start_pos := e.start_pos - t.startIdx
          end_pos := e.end_pos - t.startIdx
          inserted_text := e.inserted_text })
      (textOf d t))

/-- Two edits do not overlap: their half-open ranges are disjoint. -/
def editDisjoint (a b : Edit) : Prop :=
  a.end_pos ≤ b.start_pos ∨ b.end_pos ≤ a.start_pos

instance : DecidableRel editDisjoint := fun _ _ => instDecidableOr

/-! ## Node handles, equality and hashing -/

/-- Modelled from the spec: what an `SgNode` handle denotes — the owning
tree's identity, the node's range, and (derived, not identity-relevant) its
kind tag and text. -/
structure NodeHandle where
  treeId : Nat
  rng : Range
  kind : String
  text : List Char
deriving Repr

/-- Position equality: by value, component-wise. -/
def posEqB (a b : Pos) : Bool :=
  a.line = b.line ∧ a.column = b.column ∧ a.index = b.index

/-- Position hash: a value of the components only. -/
def posHashN (a : Pos) : Nat :=
  a.line * 1000003 + a.column * 8191 + a.index

/-- Range equality: both endpoints equal, by value. -/
def rangeEqB (a b : Range) : Bool :=
  posEqB a.start b.start && posEqB a.stop b.stop

/-- Range hash: a value of the two endpoint hashes only. -/
def rangeHashN (a : Range) : Nat :=
  posHashN a.start * 131071 + posHashN a.stop

/-- Modelled from the spec: node equality is defined by
`(tree identity, range)`, not by kind or text. -/
def nodeEqB (a b : NodeHandle) : Bool :=
  a.treeId = b.treeId && rangeEqB a.rng b.rng

/-- Modelled from the spec: the node hash is a value of
`(tree identity, range)` only. -/
def nodeHashN (a : NodeHandle) : Nat :=
  a.treeId * 524287 + rangeHashN a.rng

/-- The handle for the node a path denotes. -/
def nodeHandleAt (d : Doc) (p : Path) : Option NodeHandle :=
  (getNode d p).map (fun t =>
    { treeId := d.treeId
      rng := { start := posOfIndex d.src t.startIdx, stop := posOfIndex d.src t.stopIdx }
      kind := t.kind
      text := textOf d t })

/-! ## Transforms -/

/-- Modelled from the spec: resolve a signed slice index against a text of
`len` characters — non-negative counts from the start, negative counts from
the end (`-1` excludes the last character). -/
def resolveIdx (len : Nat) (i : Int) : Nat :=
  if i < 0 then len - i.natAbs else min i.toNat len

/-- Modelled from the spec: the `substring` transform over a source text —
omitted `startChar` defaults to 0, omitted `endChar` defaults to the text
length; both follow slice conventions. -/
def substringT (s : List Char) (startChar endChar : Option Int) : List Char :=
  let a := match startChar with
    | none => 0
    | some i => resolveIdx s.length i
  let b := match endChar with
    | none => s.length
    | some i => resolveIdx s.length i
  (s.take b).drop a

/-- A `substring` transform specification: the meta-variable it reads and the
two optional signed character bounds. -/
structure SubstringSpec where
  source : String
  startChar : Option Int
  endChar : Option Int

/-- Strip the `$` sigil of a meta-variable reference. -/
def varOfRef (s : String) : String :=
  match s.toList with
  | '$' :: rest => String.mk rest
  | _ => s

/-- Apply a `substring` transform to the text captured for its source
meta-variable in the match environment, as `get_transformed` does. -/
def getTransformed (d : Doc) (env : Env) (sp : SubstringSpec) : Option (List Char) :=
  (env.lookup (varOfRef sp.source)).map (fun ab =>
    substringT (slice d.src ab.1 ab.2) sp.startChar sp.endChar)

/-! ## Language interface, query-time validation and pattern-parse errors -/

/-- A pattern-snippet parse error reported by the external parser. -/
structure ParseError where
  msg : String
deriving DecidableEq, Repr

/-- Modelled from the spec: the external language collaborator, specified at
its interface — a fixed node-kind vocabulary and a pattern-snippet parser
that rejects catastrophically invalid snippets. -/
structure Language where
  kinds : List String
  parsePattern : String → Except ParseError PTree

mutual
/-- All kind strings a rule mentions (for eager validation). -/
def kindsIn : Rule → List String
  | .kind k => [k]
  | .pattern _ => []
  | .inside t _ => kindsIn t
  | .all rs => kindsInList rs
  | .any rs => kindsInList rs
  | .not r => kindsIn r
/-- All kind strings a rule list mentions. -/
def kindsInList : List Rule → List String
  | [] => []
  | r :: rs => kindsIn r ++ kindsInList rs
end

/-- A query-time error: an invalid / unrecognized node kind. -/
inductive QueryError where
  | invalidKind (k : String)
deriving DecidableEq, Repr

/-- Modelled from the spec: `find(rule)` with eager validation — unknown kind
strings are a query-time error, never a silent non-match. -/
def findChecked (lang : Language) (d : Doc) (r : Rule) :
    Except QueryError (Option Path) :=
  match (kindsIn r).find? (fun k => !lang.kinds.contains k) with
  | some k => .error (.invalidKind k)
  | none => .ok (findRule d r)

/-- Modelled from the spec: `find(pattern=snippet)` — a catastrophically
invalid snippet raises the parser's error; an otherwise malformed snippet
compiles and simply yields no match instead of raising. -/
def findByPatternStr (lang : Language) (d : Doc) (snippet : String) :
    Except ParseError (Option Path) :=
  match lang.parsePattern snippet with
  | .error e => .error e
  | .ok pt => .ok (findPat d (compilePat pt))

/-! ## Tree navigation at structural boundaries -/

/-- The `i`-th child of the node at `p`, or none when `i` is at least the
number of children. -/
def childAt (d : Doc) (p : Path) (i : Nat) : Option Path :=
  match getNode d p with
  | some t => if i < t.children.length then some (i :: p) else none
  | none => none

/-- The parent handle, or none on the root. -/
def parentOf (p : Path) : Option Path :=
  match p with
  | [] => none
  | _ :: q => some q

/-! ## Concrete documents

The syntax trees below reproduce the tree-sitter JavaScript parses of the
sources used by the binding's test-suite, with character spans. -/

/-- Source `"function test() \x7b\n  let a = 123\n\x7d"`. -/
def src1 : List Char := cs "function test() \x7b\n  let a = 123\n\x7d"

/-- The parse tree of `src1`. -/
def tree1 : STree :=
  .mk "program" 0 33 [
    .mk "function_declaration" 0 33 [
      .mk "function" 0 8 [],
      .mk "identifier" 9 13 [],
      .mk "formal_parameters" 13 15 [
        .mk "(" 13 14 [],
        .mk ")" 14 15 []],
      .mk "statement_block" 16 33 [
        .mk "\x7b" 16 17 [],
        .mk "lexical_declaration" 20 31 [
          .mk "let" 20 23 [],
          .mk "variable_declarator" 24 31 [
            .mk "identifier" 24 25 [],
            .mk "=" 26 27 [],
            .mk "number" 28 31 []]],
        .mk "\x7d" 32 33 []]]]

/-- The one-function / one-declaration document. -/
def doc1 : Doc := { treeId := 1, src := src1, tree := tree1 }

/-- The (reversed) path of the `lexical_declaration` node in `doc1`. -/
def letPath1 : Path := [1, 3, 0]

/-- Source `"いいよ = log(123) + log(456)"`. -/
def src2 : List Char := cs "いいよ = log(123) + log(456)"

/-- The parse tree of `src2`. -/
def tree2 : STree :=
  .mk "program" 0 25 [
    .mk "expression_statement" 0 25 [
      .mk "assignment_expression" 0 25 [
        .mk "identifier" 0 3 [],
        .mk "=" 4 5 [],
        .mk "binary_expression" 6 25 [
          .mk "call_expression" 6 14 [
            .mk "identifier" 6 9 [],
            .mk "arguments" 9 14 [
              .mk "(" 9 10 [],
              .mk "number" 10 13 [],
              .mk ")" 13 14 []]],
          .mk "+" 15 16 [],
          .mk "call_expression" 17 25 [
            .mk "identifier" 17 20 [],
            .mk "arguments" 20 25 [
              .mk "(" 20 21 [],
              .mk "number" 21 24 [],
              .mk ")" 24 25 []]]]]]]

/-- The unicode assignment document. -/
def doc2 : Doc := { treeId := 2, src := src2, tree := tree2 }

/-- Source with three declarations:
`"function test() \x7b\n  let a = 123\n  let b = 456\n  let c = 789\n\x7d"`. -/
def src3 : List Char :=
  cs "function test() \x7b\n  let a = 123\n  let b = 456\n  let c = 789\n\x7d"

/-- The parse tree of `src3`. -/
def tree3 : STree :=
  .mk "program" 0 61 [
    .mk "function_declaration" 0 61 [
      .mk "function" 0 8 [],
      .mk "identifier" 9 13 [],
      .mk "formal_parameters" 13 15 [
        .mk "(" 13 14 [],
        .mk ")" 14 15 []],
      .mk "statement_block" 16 61 [
        .mk "\x7b" 16 17 [],
        .mk "lexical_declaration" 20 31 [
          .mk "let" 20 23 [],
          .mk "variable_declarator" 24 31 [
            .mk "identifier" 24 25 [],
            .mk "=" 26 27 [],
            .mk "number" 28 31 []]],
        .mk "lexical_declaration" 34 45 [
          .mk "let" 34 37 [],
          .mk "variable_declarator" 38 45 [
            .mk "identifier" 38 39 [],
            .mk "=" 40 41 [],
            .mk "number" 42 45 []]],
        .mk "lexical_declaration" 48 59 [
          .mk "let" 48 51 [],
          .mk "variable_declarator" 52 59 [
            .mk "identifier" 52 53 [],
            .mk "=" 54 55 [],
            .mk "number" 56 59 []]],
        .mk "\x7d" 60 61 []]]]

/-- The three-declaration document. -/
def doc3 : Doc := { treeId := 3, src := src3, tree := tree3 }

/-! ## Concrete patterns (external-parser output for the test snippets) -/

/-- Modelled from the spec: the parse of snippet `"let $A = $B"`. -/
def ptLetAB : PTree :=
  .mk "lexical_declaration" "" [
    .mk "let" "let" [],
    .mk "variable_declarator" "" [
      .mk "identifier" "$A" [],
      .mk "=" "=" [],
      .mk "identifier" "$B" []]]

/-- Modelled from the spec: the parse of snippet `"let $A = 123"`. -/
def ptLetA123 : PTree :=
  .mk "lexical_declaration" "" [
    .mk "let" "let" [],
    .mk "variable_declarator" "" [
      .mk "identifier" "$A" [],
      .mk "=" "=" [],
      .mk "number" "123" []]]

/-- Modelled from the spec: the parse of snippet `"let $N = $V"`. -/
def ptLetNV : PTree :=
  .mk "lexical_declaration" "" [
    .mk "let" "let" [],
    .mk "variable_declarator" "" [
      .mk "identifier" "$N" [],
      .mk "=" "=" [],
      .mk "identifier" "$V" []]]

/-- Modelled from the spec: the parse of the recoverable-noise snippet
`"@test"` — the error-tolerant parser yields an `ERROR`-kind node rather than
failing, so the compiled pattern simply matches nothing. -/
def ptAtTest : PTree := .mk "ERROR" "@test" []

/-- Compiled pattern for `"let $A = $B"`. -/
def patLetAB : Pat := compilePat ptLetAB

/-- Compiled pattern for `"let $A = 123"`. -/
def patLetA123 : Pat := compilePat ptLetA123

/-- Compiled pattern for `"let $N = $V"`. -/
def patLetNV : Pat := compilePat ptLetNV

/-! ## A concrete language model -/

/-- Modelled from the spec: part of the fixed kind vocabulary of the
JavaScript grammar (enough to validate the rules the claims exercise). -/
def jsKinds : List String :=
  ["program", "function_declaration", "function", "identifier",
   "formal_parameters", "statement_block", "lexical_declaration",
   "variable_declarator", "number", "expression_statement",
   "assignment_expression", "binary_expression", "call_expression",
   "arguments", "let", "=", "(", ")", "\x7b", "\x7d", "+", "ERROR"]

/-- Modelled from the spec: the external pattern-snippet parser at its
interface — the snippets the tests exercise parse to their trees (`"@test"`
recovering to an `ERROR` node), while a catastrophically invalid snippet is
reported as a parse error. -/
def jsParsePattern (s : String) : Except ParseError PTree :=
  if s = "let $A = $B" then .ok ptLetAB
  else if s = "let $A = 123" then .ok ptLetA123
  else if s = "let $N = $V" then .ok ptLetNV
  else if s = "@test" then .ok ptAtTest
  else .error { msg := "pattern parse error" }

/-- The modelled JavaScript language collaborator. -/
def jsLang : Language := { kinds := jsKinds, parsePattern := jsParsePattern }

/-! # Theorems -/

/-- C1: for the source `"function test() \x7b\n  let a = 123\n\x7d"` parsed
as JavaScript, `find` with pattern `"let $A = $B"` returns a node whose
`text()` equals exactly `"let a = 123"` — the literal source slice at the
returned range — and whose `range()` has start `Pos (1, 2, 20)` and end
`Pos (1, 13, 31)`. -/
theorem c1_find_text_and_range :
    findPat doc1 patLetAB = some letPath1
    ∧ nodeTextAt doc1 letPath1 = some (cs "let a = 123")
    ∧ nodeTextAt doc1 letPath1 = some (slice doc1.src 20 31)
    ∧ rangeAt doc1 letPath1 =
        some { start := { line := 1, column := 2, index := 20 }
               stop := { line := 1, column := 13, index := 31 } } := by
  refine ⟨by decide, by decide, by decide, by decide⟩

/-- C4: node handle equality and hash are functions of
`(tree identity, range)` only — handles agreeing there are equal and
hash-equal whatever their kind or text, however they were produced — and
`Pos` / `Range` values are equal and hash-equal whenever their components
are. -/
theorem c4_identity_by_tree_and_range :
    (∀ a b : NodeHandle, a.treeId = b.treeId → a.rng = b.rng →
        nodeEqB a b = true ∧ nodeHashN a = nodeHashN b)
    ∧ (∀ p q : Pos, p.line = q.line → p.column = q.column → p.index = q.index →
        posEqB p q = true ∧ posHashN p = posHashN q)
    ∧ (∀ r s : Range, r.start = s.start → r.stop = s.stop →
        rangeEqB r s = true ∧ rangeHashN r = rangeHashN s) := by
  refine ⟨fun a b h1 h2 => ?_, fun p q h1 h2 h3 => ?_, fun r s h1 h2 => ?_⟩
  · cases a; cases b
    simp_all [nodeEqB, nodeHashN, rangeEqB, rangeHashN, posEqB, posHashN]
  · cases p; cases q
    simp_all [posEqB, posHashN]
  · cases r; cases s
    simp_all [rangeEqB, rangeHashN, posEqB, posHashN]

/-- C4 witness: the nodes returned by the two distinct queries
`pattern: "let $A = $B"` and `pattern: "let $A = 123"` denote the same span
of `doc1` and are `==`- and hash-equal; moreover a synthetic handle agreeing
on `(tree, range)` but differing in kind and text is still equal and
hash-equal, so equality does not depend on kind or text. -/
theorem c4_witness :
    findPat doc1 patLetAB = some letPath1
    ∧ findPat doc1 patLetA123 = some letPath1
    ∧ (nodeEqB
         { treeId := 1
           rng := { start := { line := 1, column := 2, index := 20 }
                    stop := { line := 1, column := 13, index := 31 } }
           kind := "lexical_declaration", text := cs "let a = 123" }
         { treeId := 1
           rng := { start := { line := 1, column := 2, index := 20 }
                    stop := { line := 1, column := 13, index := 31 } }
           kind := "number", text := [] } = true
       ∧ nodeHashN
         { treeId := 1
           rng := { start := { line := 1, column := 2, index := 20 }
                    stop := { line := 1, column := 13, index := 31 } }
           kind := "lexical_declaration", text := cs "let a = 123" }
         = nodeHashN
         { treeId := 1
           rng := { start := { line := 1, column := 2, index := 20 }
                    stop := { line := 1, column := 13, index := 31 } }
           kind := "number", text := [] }) :=
  ⟨by decide, by decide, c4_identity_by_tree_and_range.1 _ _ rfl rfl⟩

/-- C9: `replace(node, text)` produces an `Edit` spanning the node's exact
byte range — `start_pos` / `end_pos` are the range's start and end indices —
with the given replacement text and no validation of it; committing that
edit against the whole source and against the matched node itself rewrites
them as the test-suite scenario states. -/
theorem c9_replace_spans_node_range :
    (∀ (d : Doc) (p : Path) (t : String) (rng : Range),
        rangeAt d p = some rng →
          replace d p t = some { start_pos := rng.start.index
                                 end_pos := rng.stop.index
                                 inserted_text := t.toList })
    ∧ replace doc1 letPath1 "let b = 456" = some ⟨20, 31, cs "let b = 456"⟩
    ∧ commitEditsOn doc1 [] [⟨20, 31, cs "let b = 456"⟩]
        = some (cs "function test() \x7b\n  let b = 456\n\x7d")
    ∧ commitEditsOn doc1 letPath1 [⟨20, 31, cs "let b = 456"⟩]
        = some (cs "let b = 456") := by
  refine ⟨fun d p t rng h => ?_, by decide, by decide, by decide⟩
  simp [replace, h]

/-- C9 witness: the general clause applied to the matched declaration node
of `doc1` at its concrete range. -/
theorem c9_witness :
    replace doc1 letPath1 "let b = 456"
      = some { start_pos := 20, end_pos := 31, inserted_text := cs "let b = 456" } :=
  c9_replace_spans_node_range.1 doc1 letPath1 "let b = 456"
    { start := { line := 1, column := 2, index := 20 }
      stop := { line := 1, column := 13, index := 31 } }
    (by decide)

/-- C10: tree navigation is total at structural boundaries — `child(i)`
returns `None` whenever `i` is at least the node's number of children, and
`parent()` returns `None` on the root; concretely, on the
`variable_declarator` of `doc3`, children 0 and 2 exist and child 3 is
`None`. -/
theorem c10_navigation_total :
    (∀ (d : Doc) (p : Path) (t : STree), getNode d p = some t →
        ∀ i : Nat, t.children.length ≤ i → childAt d p i = none)
    ∧ parentOf [] = none
    ∧ (childAt doc3 [1, 1, 3, 0] 0).bind (nodeTextAt doc3) = some (cs "a")
    ∧ (childAt doc3 [1, 1, 3, 0] 2).bind (nodeTextAt doc3) = some (cs "123")
    ∧ childAt doc3 [1, 1, 3, 0] 3 = none := by
  refine ⟨fun d p t h i hi => ?_, rfl, by decide, by decide, by decide⟩
  simp [childAt, h]
  omega

/-- C10 witness: the general out-of-bounds clause applied to the
`variable_declarator` node of `doc3` with index 5. -/
theorem c10_witness : childAt doc3 [1, 1, 3, 0] 5 = none :=
  c10_navigation_total.1 doc3 [1, 1, 3, 0]
    (.mk "variable_declarator" 24 31
      [.mk "identifier" 24 25 [], .mk "=" 26 27 [], .mk "number" 28 31 []])
    rfl 5 (by decide)

/-- C5: the `substring` transform selects characters by slice conventions —
omitted bounds default to the whole text, a non-negative index counts from
the start, a negative index counts from the end (`-1` excludes the last
character) — and over the text `"123"` captured for `$B` by matching
`"let $A = $B"` against `doc1`, `startChar=1, endChar=-1` yields `"2"`
while `startChar=1` with `endChar` omitted yields `"23"`. -/
theorem c5_substring_slice_conventions :
    (∀ s : List Char, substringT s none none = s)
    ∧ (∀ (s : List Char) (k : Nat), substringT s (some (k : Int)) none = s.drop k)
    ∧ (∀ (s : List Char) (k : Nat), substringT s none (some (k : Int)) = s.take k)
    ∧ (∀ (s : List Char) (k : Nat),
        substringT s none (some (-((k : Int) + 1))) = s.take (s.length - (k + 1)))
    ∧ (findPatEnv doc1 patLetAB).map
        (fun pe => getTransformed doc1 pe.2 ⟨"$B", some 1, some (-1)⟩)
        = some (some (cs "2"))
    ∧ (findPatEnv doc1 patLetAB).map
        (fun pe => getTransformed doc1 pe.2 ⟨"$B", some 1, none⟩)
        = some (some (cs "23")) := by
  refine ⟨fun s => ?_, fun s k => ?_, fun s k => ?_, fun s k => ?_,
    by decide, by decide⟩
  · simp [substringT]
  · simp only [substringT, resolveIdx]
    rw [if_neg (by omega)]
    simp only [Int.toNat_natCast, List.take_length, List.drop_zero]
    rcases Nat.le_total k s.length with h | h
    · rw [Nat.min_eq_left h]
    · rw [Nat.min_eq_right h, List.drop_of_length_le h,
        List.drop_of_length_le (le_refl _)]
  · simp only [substringT, resolveIdx]
    rw [if_neg (by omega)]
    simp only [Int.toNat_natCast, List.drop_zero]
    rcases Nat.le_total k s.length with h | h
    · rw [Nat.min_eq_left h]
    · rw [Nat.min_eq_right h, List.take_length, List.take_of_length_le h]
  · simp only [substringT, resolveIdx]
    rw [if_pos (by omega)]
    have : (-((k : Int) + 1)).natAbs = k + 1 := by omega
    rw [this]
    simp

/-- The strictly-upward walk succeeds exactly when some proper suffix of the
(reversed) path — i.e. some strict ancestor, up to and including the root —
satisfies the test. -/
theorem anyTail_iff_exists (f : Path → Bool) (p : Path) :
    anyTail f p = true ↔ ∃ q : Path, q ≠ p ∧ q.IsSuffix p ∧ f q = true := by
  induction p with
  | nil =>
    simp only [anyTail]
    constructor
    · intro h
      cases h
    · rintro ⟨q, hne, hsuf, -⟩
      exact absurd (List.suffix_nil.mp hsuf) hne
  | cons x q ih =>
    simp only [anyTail, Bool.or_eq_true, ih]
    constructor
    · rintro (hf | ⟨r, hne, hsuf, hr⟩)
      · refine ⟨q, ?_, List.suffix_cons x q, hf⟩
        intro h
        have := congrArg List.length h
        simp at this
      · refine ⟨r, ?_, hsuf.trans (List.suffix_cons x q), hr⟩
        intro h
        have hlt : r.length < q.length := by
          rcases Nat.lt_or_ge r.length q.length with h' | h'
          · exact h'
          · exact absurd (hsuf.eq_of_length (Nat.le_antisymm hsuf.length_le h')) hne
        have := congrArg List.length h
        simp at this
        omega
    · rintro ⟨r, hne, hsuf, hr⟩
      rcases List.suffix_cons_iff.mp hsuf with h | h
      · exact absurd h hne
      · by_cases h' : r = q
        · subst h'
          exact Or.inl hr
        · exact Or.inr ⟨r, h', h, hr⟩

/-- C3: the relational rule `inside` with `stopBy: "end"` succeeds if and
only if walking strictly upward through the node's ancestors reaches a node
matching the target rule; concretely in `doc1` the `let` declaration —
whose immediate parent is a `statement_block`, not a function — satisfies
`inside = {kind: "function_declaration", stopBy: "end"}`, while the
`function_declaration` node itself, not under any node of that kind, does
not. -/
theorem c3_inside_stopBy_end :
    (∀ (d : Doc) (target : Rule) (p : Path),
        evalRule d (.inside target .stopEnd) p = true ↔
          ∃ q : Path, q ≠ p ∧ q.IsSuffix p ∧ evalRule d target q = true)
    ∧ evalRule doc1 (.inside (.kind "function_declaration") .stopEnd) letPath1 = true
    ∧ evalRule doc1 (.kind "function_declaration") [3, 0] = false
    ∧ evalRule doc1 (.inside (.kind "function_declaration") .stopEnd) [0] = false := by
  refine ⟨fun d target p => ?_, by decide, by decide, by decide⟩
  rw [evalRule]
  exact anyTail_iff_exists (evalRule d target) p

/-- C3 witness: applying the characterization to the `let` declaration of
`doc1` exhibits a strict (here non-immediate) ancestor of kind
`function_declaration`. -/
theorem c3_witness :
    ∃ q : Path, q ≠ letPath1 ∧ q.IsSuffix letPath1
      ∧ evalRule doc1 (.kind "function_declaration") q = true :=
  (c3_inside_stopBy_end.1 doc1 (.kind "function_declaration") letPath1).mp
    (by decide)

/-- C7: `find(pattern=snippet)` raises exactly the parse error of a
catastrophically invalid snippet; any snippet the (error-tolerant) parser
accepts — however malformed — yields an ordinary optional result, so a
garbage-but-recoverable snippet such as `"@test"` produces `None` rather
than raising. -/
theorem c7_invalid_pattern_handling :
    (∀ (lang : Language) (d : Doc) (s : String) (e : ParseError),
        lang.parsePattern s = .error e → findByPatternStr lang d s = .error e)
    ∧ (∀ (lang : Language) (d : Doc) (s : String) (pt : PTree),
        lang.parsePattern s = .ok pt →
          findByPatternStr lang d s = .ok (findPat d (compilePat pt)))
    ∧ findByPatternStr jsLang doc1 "$@!!--l3**+no//nsense"
        = .error { msg := "pattern parse error" }
    ∧ findByPatternStr jsLang doc1 "@test" = .ok none := by
  refine ⟨fun lang d s e h => ?_, fun lang d s pt h => ?_, rfl, rfl⟩
  · simp [findByPatternStr, h]
  · simp [findByPatternStr, h]

/-- C7 witness: the ok-clause applied to the snippet `"let $N = $V"` on the
three-declaration document. -/
theorem c7_witness :
    findByPatternStr jsLang doc3 "let $N = $V"
      = .ok (findPat doc3 (compilePat ptLetNV)) :=
  c7_invalid_pattern_handling.2.1 jsLang doc3 "let $N = $V" ptLetNV rfl

/-- C8: a query whose rule mentions a kind string outside the grammar's
vocabulary fails eagerly with a query-time error — never a silent
non-match — while a rule whose kind strings are all known is evaluated
normally. -/
theorem c8_unknown_kind_is_query_error :
    (∀ (lang : Language) (d : Doc) (r : Rule),
        (∃ k, k ∈ kindsIn r ∧ k ∉ lang.kinds) →
          ∃ e : QueryError, findChecked lang d r = .error e)
    ∧ (∀ (lang : Language) (d : Doc) (r : Rule),
        (∀ k, k ∈ kindsIn r → k ∈ lang.kinds) →
          findChecked lang d r = .ok (findRule d r)) := by
  constructor
  · rintro lang d r ⟨k, hk, hnk⟩
    have hsome : ((kindsIn r).find? (fun k => !lang.kinds.contains k)).isSome := by
      rw [List.find?_isSome]
      exact ⟨k, hk, by simpa using hnk⟩
    rcases Option.isSome_iff_exists.mp hsome with ⟨k', hk'⟩
    exact ⟨.invalidKind k', by rw [findChecked, hk']⟩
  · intro lang d r h
    have hnone : (kindsIn r).find? (fun k => !lang.kinds.contains k) = none := by
      rw [List.find?_eq_none]
      intro x hx
      simpa using h x hx
    rw [findChecked, hnone]

/-- Two permutations of the same elements, each strictly sorted by a key,
are the same list. -/
theorem eq_of_perm_of_strictSortedKey {α : Type} (key : α → Nat) :
    ∀ (l₁ l₂ : List α), l₁.Perm l₂ →
      l₁.Pairwise (fun a b => key b < key a) →
      l₂.Pairwise (fun a b => key b < key a) → l₁ = l₂ := by
  intro l₁
  induction l₁ with
  | nil =>
    intro l₂ hp _ _
    exact (hp.symm.eq_nil).symm
  | cons a t ih =>
    intro l₂ hp h1 h2
    cases l₂ with
    | nil => exact absurd hp.eq_nil (by simp)
    | cons b t₂ =>
      have ha : a ∈ b :: t₂ := hp.subset (List.mem_cons_self a t)
      have hab : a = b := by
        by_contra hne
        have ha' : a ∈ t₂ := by
          rcases List.mem_cons.mp ha with h | h
          · exact absurd h hne
          · exact h
        have hb : b ∈ a :: t := hp.symm.subset (List.mem_cons_self b t₂)
        have hb' : b ∈ t := by
          rcases List.mem_cons.mp hb with h | h
          · exact absurd h.symm hne
          · exact h
        have hlt1 : key b < key a := (List.pairwise_cons.mp h1).1 b hb'
        have hlt2 : key a < key b := (List.pairwise_cons.mp h2).1 a ha'
        omega
      subst hab
      rw [ih t₂ hp.cons_inv (List.pairwise_cons.mp h1).2
        (List.pairwise_cons.mp h2).2]

/-- C2 (amended): for pairwise non-overlapping edits no two of which share a
start offset, `commit_edits` — which sorts by descending start offset and
splices right-to-left — returns the same output for every permutation of the
input edit list. -/
theorem c2_commit_order_invariant (src : List Char) (l l' : List Edit)
    (hperm : l.Perm l')
    (hdisj : l.Pairwise editDisjoint)
    (hne : l.Pairwise (fun a b => a.start_pos ≠ b.start_pos)) :
    commitEdits src l = commitEdits src l' := by
  have hsymm : ∀ {a b : Edit}, a.start_pos ≠ b.start_pos →
      b.start_pos ≠ a.start_pos := fun h => h.symm
  have hsort : sortEdits l = sortEdits l' := by
    have p1 : (sortEdits l).Perm l := List.perm_insertionSort editGE l
    have p2 : (sortEdits l').Perm l' := List.perm_insertionSort editGE l'
    have s1 : (sortEdits l).Pairwise editGE := List.sorted_insertionSort editGE l
    have s2 : (sortEdits l').Pairwise editGE := List.sorted_insertionSort editGE l'
    have hne1 : (sortEdits l).Pairwise (fun a b => a.start_pos ≠ b.start_pos) :=
      (List.Perm.pairwise_iff hsymm p1).mpr hne
    have hne2 : (sortEdits l').Pairwise (fun a b => a.start_pos ≠ b.start_pos) :=
      (List.Perm.pairwise_iff hsymm p2).mpr
        ((List.Perm.pairwise_iff hsymm hperm).mp hne)
    have strict1 : (sortEdits l).Pairwise
        (fun a b => b.start_pos < a.start_pos) :=
      (s1.and hne1).imp (fun h =>
        Nat.lt_of_le_of_ne h.1 (fun e => h.2 e.symm))
    have strict2 : (sortEdits l').Pairwise
        (fun a b => b.start_pos < a.start_pos) :=
      (s2.and hne2).imp (fun h =>
        Nat.lt_of_le_of_ne h.1 (fun e => h.2 e.symm))
    exact eq_of_perm_of_strictSortedKey Edit.start_pos _ _
      (p1.trans (hperm.trans p2.symm)) strict1 strict2
  rw [commitEdits, commitEdits, hsort]

/-- C2 counterexample: as stated, order-independence for all batches of
pairwise non-overlapping edits is false — a zero-width edit sitting at the
start offset of another edit does not overlap it, yet the two orderings
commit to different strings. -/
theorem c2_counterexample :
    ([⟨5, 5, cs "X"⟩, ⟨5, 7, cs "Y"⟩] : List Edit).Pairwise editDisjoint
    ∧ ([⟨5, 5, cs "X"⟩, ⟨5, 7, cs "Y"⟩] : List Edit).Perm
        [⟨5, 7, cs "Y"⟩, ⟨5, 5, cs "X"⟩]
    ∧ commitEdits (cs "abcdefgh") [⟨5, 5, cs "X"⟩, ⟨5, 7, cs "Y"⟩]
        ≠ commitEdits (cs "abcdefgh") [⟨5, 7, cs "Y"⟩, ⟨5, 5, cs "X"⟩] :=
  ⟨by decide, by decide, by decide⟩

/-- C2 witness: the two number replacements of the unicode scenario, in
ascending and descending order, commit to the same rewritten string. -/
theorem c2_witness :
    commitEdits src2 [⟨10, 13, cs "114514"⟩, ⟨21, 24, cs "114514"⟩]
      = commitEdits src2 [⟨21, 24, cs "114514"⟩, ⟨10, 13, cs "114514"⟩]
    ∧ commitEdits src2 [⟨10, 13, cs "114514"⟩, ⟨21, 24, cs "114514"⟩]
      = cs "いいよ = log(114514) + log(114514)" :=
  ⟨c2_commit_order_invariant src2 _ _ (by decide) (by decide) (by decide),
   by decide⟩

/-- Two suffixes of one list with the same length coincide. -/
theorem suffix_eq_of_length {α : Type} {l₁ l₂ l : List α}
    (h1 : l₁ <:+ l) (h2 : l₂ <:+ l) (h : l₁.length = l₂.length) : l₁ = l₂ := by
  obtain ⟨u, hu⟩ := h1
  obtain ⟨v, hv⟩ := h2
  have hd1 : l.drop u.length = l₁ := by rw [← hu, List.drop_left]
  have hd2 : l.drop v.length = l₂ := by rw [← hv, List.drop_left]
  have hlen : u.length = v.length := by
    have e1 := congrArg List.length hu
    have e2 := congrArg List.length hv
    simp at e1 e2
    omega
  rw [← hd1, ← hd2, hlen]

mutual
/-- Every `find_all` result of a subtree is a sublist of its pre-order
(document-order) enumeration. -/
theorem findAllAux_sublist (d : Doc) (r : Rule) (t : STree) (rp : Path) :
    (findAllAux d r t rp).Sublist (preorderAux t rp) := by
  cases t with
  | mk k a b cs =>
    rw [findAllAux, preorderAux]
    by_cases h : evalRule d r rp
    · simp only [if_pos h]
      exact (List.nil_sublist _).cons₂ rp
    · simp only [if_neg h]
      exact (findAllList_sublist d r cs 0 rp).cons rp
/-- List version of `findAllAux_sublist`. -/
theorem findAllList_sublist (d : Doc) (r : Rule) (ts : List STree) (i : Nat)
    (rp : Path) : (findAllList d r ts i rp).Sublist (preorderList ts i rp) := by
  cases ts with
  | nil =>
    rw [findAllList, preorderList]
  | cons c rest =>
    rw [findAllList, preorderList]
    exact (findAllAux_sublist d r c (i :: rp)).append
      (findAllList_sublist d r rest (i + 1) rp)
end

mutual
/-- Every path yielded by `find_all` on a subtree extends the subtree's own
path (as a suffix of the reversed path). -/
theorem mem_findAllAux_suffix (d : Doc) (r : Rule) (t : STree) (rp p : Path)
    (hp : p ∈ findAllAux d r t rp) : rp <:+ p := by
  cases t with
  | mk k a b cs =>
    rw [findAllAux] at hp
    by_cases h : evalRule d r rp
    · rw [if_pos h] at hp
      simp at hp
      rw [hp]
    · rw [if_neg h] at hp
      obtain ⟨j, -, hsuf⟩ := mem_findAllList_suffix d r cs 0 rp p hp
      exact (List.suffix_cons j rp).trans hsuf
/-- List version of `mem_findAllAux_suffix`: the yielded path descends into
the `j`-th child for some `j ≥ i`. -/
theorem mem_findAllList_suffix (d : Doc) (r : Rule) (ts : List STree) (i : Nat)
    (rp p : Path) (hp : p ∈ findAllList d r ts i rp) :
    ∃ j, i ≤ j ∧ (j :: rp) <:+ p := by
  cases ts with
  | nil =>
    rw [findAllList] at hp
    cases hp
  | cons c rest =>
    rw [findAllList] at hp
    rcases List.mem_append.mp hp with h | h
    · exact ⟨i, Nat.le_refl i, mem_findAllAux_suffix d r c (i :: rp) p h⟩
    · obtain ⟨j, hj, hsuf⟩ := mem_findAllList_suffix d r rest (i + 1) rp p h
      exact ⟨j, by omega, hsuf⟩
end

mutual
/-- No two distinct paths yielded by `find_all` on a subtree are nested:
neither is an ancestor (reversed-path suffix) of the other. -/
theorem findAllAux_pairwise (d : Doc) (r : Rule) (t : STree) (rp : Path) :
    (findAllAux d r t rp).Pairwise (fun p q => ¬ p <:+ q ∧ ¬ q <:+ p) := by
  cases t with
  | mk k a b cs =>
    rw [findAllAux]
    by_cases h : evalRule d r rp
    · rw [if_pos h]
      simp
    · rw [if_neg h]
      exact findAllList_pairwise d r cs 0 rp
/-- List version of `findAllAux_pairwise`. -/
theorem findAllList_pairwise (d : Doc) (r : Rule) (ts : List STree) (i : Nat)
    (rp : Path) :
    (findAllList d r ts i rp).Pairwise (fun p q => ¬ p <:+ q ∧ ¬ q <:+ p) := by
  cases ts with
  | nil =>
    rw [findAllList]
    simp
  | cons c rest =>
    rw [findAllList]
    rw [List.pairwise_append]
    refine ⟨findAllAux_pairwise d r c (i :: rp),
      findAllList_pairwise d r rest (i + 1) rp, ?_⟩
    intro p hp q hq
    have hip : (i :: rp) <:+ p := mem_findAllAux_suffix d r c (i :: rp) p hp
    obtain ⟨j, hij, hjq⟩ := mem_findAllList_suffix d r rest (i + 1) rp q hq
    constructor
    · intro hpq
      have hiq : (i :: rp) <:+ q := hip.trans hpq
      have : (i :: rp) = (j :: rp) := suffix_eq_of_length hiq hjq (by simp)
      simp at this
      omega
    · intro hqp
      have hjp : (j :: rp) <:+ p := hjq.trans hqp
      have : (i :: rp) = (j :: rp) := suffix_eq_of_length hip hjp (by simp)
      simp at this
      omega
end

mutual
/-- Every node of a subtree's pre-order enumeration extends the subtree's
own path. -/
theorem mem_preorderAux_suffix (t : STree) (rp p : Path)
    (hp : p ∈ preorderAux t rp) : rp <:+ p := by
  cases t with
  | mk k a b cs =>
    rw [preorderAux] at hp
    rcases List.mem_cons.mp hp with h | h
    · rw [h]
    · obtain ⟨j, -, hsuf⟩ := mem_preorderList_suffix cs 0 rp p h
      exact (List.suffix_cons j rp).trans hsuf
/-- List version of `mem_preorderAux_suffix`. -/
theorem mem_preorderList_suffix (ts : List STree) (i : Nat) (rp p : Path)
    (hp : p ∈ preorderList ts i rp) : ∃ j, i ≤ j ∧ (j :: rp) <:+ p := by
  cases ts with
  | nil =>
    rw [preorderList] at hp
    cases hp
  | cons c rest =>
    rw [preorderList] at hp
    rcases List.mem_append.mp hp with h | h
    · exact ⟨i, Nat.le_refl i, mem_preorderAux_suffix c (i :: rp) p h⟩
    · obtain ⟨j, hj, hsuf⟩ := mem_preorderList_suffix rest (i + 1) rp p h
      exact ⟨j, by omega, hsuf⟩
end

mutual
/-- Every matching node of a subtree lies at or below some yielded
`find_all` match: nested matches are covered by the yielded ancestor. -/
theorem findAllAux_complete (d : Doc) (r : Rule) (t : STree) (rp p : Path)
    (hp : p ∈ preorderAux t rp) (he : evalRule d r p = true) :
    ∃ q, q ∈ findAllAux d r t rp ∧ q <:+ p := by
  cases t with
  | mk k a b cs =>
    rw [findAllAux]
    by_cases h : evalRule d r rp
    · rw [if_pos h]
      exact ⟨rp, by simp, mem_preorderAux_suffix (.mk k a b cs) rp p hp⟩
    · rw [if_neg h]
      rw [preorderAux] at hp
      rcases List.mem_cons.mp hp with h' | h'
      · subst h'
        exact absurd he h
      · exact findAllList_complete d r cs 0 rp p h' he
/-- List version of `findAllAux_complete`. -/
theorem findAllList_complete (d : Doc) (r : Rule) (ts : List STree) (i : Nat)
    (rp p : Path) (hp : p ∈ preorderList ts i rp) (he : evalRule d r p = true) :
    ∃ q, q ∈ findAllList d r ts i rp ∧ q <:+ p := by
  cases ts with
  | nil =>
    rw [preorderList] at hp
    cases hp
  | cons c rest =>
    rw [preorderList] at hp
    rw [findAllList]
    rcases List.mem_append.mp hp with h | h
    · obtain ⟨q, hq, hsuf⟩ := findAllAux_complete d r c (i :: rp) p h he
      exact ⟨q, List.mem_append_left _ hq, hsuf⟩
    · obtain ⟨q, hq, hsuf⟩ := findAllList_complete d r rest (i + 1) rp p h he
      exact ⟨q, List.mem_append_right _ hq, hsuf⟩
end

/-- C6: `find_all` returns all matches in document (pre-order) order,
yielding only maximal top-level matches — its result is a sublist of the
pre-order enumeration, no yielded match is nested inside another, and every
matching node lies at or below a yielded match; on the three-declaration
document the pattern `"let $N = $V"` yields exactly its three occurrences,
in document order. -/
theorem c6_find_all_document_order :
    findAll doc3 (Rule.pattern patLetNV) = [[1, 3, 0], [2, 3, 0], [3, 3, 0]]
    ∧ (findAll doc3 (Rule.pattern patLetNV)).map (nodeTextAt doc3)
        = [some (cs "let a = 123"), some (cs "let b = 456"),
           some (cs "let c = 789")]
    ∧ (∀ (d : Doc) (r : Rule), (findAll d r).Sublist (preorder d))
    ∧ (∀ (d : Doc) (r : Rule), (findAll d r).Pairwise
        (fun p q => ¬ p.IsSuffix q ∧ ¬ q.IsSuffix p))
    ∧ (∀ (d : Doc) (r : Rule) (p : Path), p ∈ preorder d →
        evalRule d r p = true → ∃ q, q ∈ findAll d r ∧ q.IsSuffix p) := by
  refine ⟨by decide, by decide, fun d r => ?_, fun d r => ?_, fun d r p hp he => ?_⟩
  · rw [findAll, preorder]
    exact findAllAux_sublist d r d.tree []
  · rw [findAll]
    exact findAllAux_pairwise d r d.tree []
  · rw [findAll]
    rw [preorder] at hp
    exact findAllAux_complete d r d.tree [] p hp he

/-- C6 witness: the completeness clause applied to the second declaration of
`doc3`, which is itself yielded. -/
theorem c6_witness :
    ∃ q, q ∈ findAll doc3 (Rule.pattern patLetNV) ∧ q.IsSuffix [2, 3, 0] :=
  c6_find_all_document_order.2.2.2.2 doc3 (Rule.pattern patLetNV) [2, 3, 0]
    (by decide) (by decide)

/-- C8 witness: `kind: "nonsense"` errors on the modelled JavaScript
vocabulary, while `kind: "number"` is evaluated normally. -/
theorem c8_witness :
    (∃ e : QueryError, findChecked jsLang doc1 (Rule.kind "nonsense") = .error e)
    ∧ findChecked jsLang doc3 (Rule.kind "number")
        = .ok (findRule doc3 (Rule.kind "number")) :=
  ⟨c8_unknown_kind_is_query_error.1 jsLang doc1 _ ⟨"nonsense", by decide, by decide⟩,
   c8_unknown_kind_is_query_error.2 jsLang doc3 _ (by decide)⟩

end AstGrep
